import Mathlib

/-!
Verification of the haste-resolver dependency engine.

The development below is a shallow embedding of the JavaScript sources:
`DependencyGraph` (cache, haste map, node resolution, ordered collection),
`Module` (entity reader and constructor) and the file-change handler.
Paths are posix strings; the filesystem collaborator is a record of
existing files and directories; promise-returning functions become pure
functions (resolution is read-only), with rejection modeled as `none`.
-/

namespace HasteResolver

/-! ### Path model (posix).

Models of the node `path` functions used by the sources: `join`,
`normalize`, `resolve` (on already-absolute inputs), `dirname`, and of the
`absolute-path` package test.  All definitions are structural so that they
evaluate on concrete inputs. -/

/-- Split a character list at every occurrence of the separator;
the accumulator holds the current (reversed) component. -/
def splitCharsAux (sep : Char) : List Char → List Char → List (List Char)
  | [], acc => [acc.reverse]
  | c :: cs, acc =>
    if c = sep then acc.reverse :: splitCharsAux sep cs []
    else splitCharsAux sep cs (c :: acc)

/-- Components of a path string, split on the posix separator. -/
def splitPath (s : String) : List String :=
  (splitCharsAux ('/') s.data []).map (fun l => String.mk l)

/-- Join path components with the posix separator. -/
def joinComps : List String → String
  | [] => ("")
  | [c] => c
  | c :: cs => c ++ ("/") ++ joinComps cs

/-- True when the path starts with the posix separator; this is the test
performed by the `absolute-path` npm package on posix systems. -/
def isAbsolutePath (p : String) : Bool := p.data.head? == some ('/')

/-- JS-style character indexing: the js expression `s[i]`, with js
`undefined` modeled as `none`. -/
def strGet (s : String) (i : Nat) : Option Char := s.data.get? i

/-- Component normalization: drop empty and `.` components, resolve `..`
against the accumulated stack (at the root of an absolute path excess `..`
components are dropped, as node does; for relative paths they are kept). -/
def normComps (absolute : Bool) : List String → List String → List String
  | acc, [] => acc.reverse
  | acc, comp :: comps =>
    if comp = ("") ∨ comp = (".") then normComps absolute acc comps
    else if comp = ("..") then
      match acc with
      | [] =>
        if absolute then normComps absolute [] comps
        else normComps absolute [comp] comps
      | a :: rest =>
        if a = ("..") then normComps absolute (comp :: acc) comps
        else normComps absolute rest comps
    else normComps absolute (comp :: acc) comps

/-- Model of node `path.normalize` for posix paths. -/
def normalizePath (s : String) : String :=
  if isAbsolutePath s then ("/") ++ joinComps (normComps true [] (splitPath s))
  else
    let comps := normComps false [] (splitPath s)
    if comps.isEmpty then (".") else joinComps comps

/-- Model of node `path.resolve` on a single argument.  Every call site in
the sources passes an absolute path (the `Module` constructor guards with
`isAbsolutePath`, and `resolutionHash` receives entity paths which are
absolute by construction); on absolute inputs `path.resolve` coincides
with `path.normalize`. -/
def resolvePath (p : String) : String := normalizePath p

/-- Model of node `path.dirname` for posix paths. -/
def dirname (s : String) : String :=
  let abs := isAbsolutePath s
  let comps := (splitPath s).filter (fun c => c ≠ (""))
  match comps with
  | [] => if abs then ("/") else (".")
  | _ :: _ =>
    let rest := comps.dropLast
    if abs then (if rest.isEmpty then ("/") else ("/") ++ joinComps rest)
    else (if rest.isEmpty then (".") else joinComps rest)

/-- Model of node `path.join` on two arguments. -/
def pathJoin (a b : String) : String := normalizePath (a ++ ("/") ++ b)

/-- Model of node `path.join` on three arguments. -/
def pathJoin3 (a b c : String) : String :=
  normalizePath (a ++ ("/") ++ b ++ ("/") ++ c)

/-- The ancestor directories visited by the loop
`for (currDir = dir; currDir !== sep; currDir = path.dirname(currDir))`,
fuel-bounded (on the absolute paths produced by the sources, `dirname`
strictly shortens its argument, so `length + 1` steps always suffice). -/
def ancestorDirsAux : Nat → String → List String
  | 0, _ => []
  | fuel + 1, dir =>
    if dir = ("/") then [] else dir :: ancestorDirsAux fuel (dirname dir)

/-- Ancestor directories of `dir`, nearest first, stopping before `/`. -/
def ancestorDirs (dir : String) : List String :=
  ancestorDirsAux (dir.length + 1) dir

/-! ### The virtual filesystem collaborator.

The Fastfs collaborator is external to the resolver (spec section 6); the
resolver consumes it only through `fileExists` and `dirExists`, so it is a
record of the existing files and directories. -/

/-- A snapshot of the crawled file tree. -/
structure FS where
  files : List String
  dirs : List String
deriving DecidableEq

/-- The `fastfs.fileExists(path)` query. -/
def FS.fileExists (fs : FS) (p : String) : Bool := fs.files.contains p

/-- The `fastfs.dirExists(path)` query. -/
def FS.dirExists (fs : FS) (p : String) : Bool := fs.dirs.contains p

/-! ### The name index (haste map).

Entries of `_hasteMap` are entities exposing `type` (the js class tag,
`Module` or `Package`) and `path`.  The js object used as the map is
modeled as an association list whose assignment removes the previous
binding of the key. -/

/-- The part of an entity that `_updateHasteMap` and `_processFileChange`
inspect: its js `type` tag and its path. -/
structure HEntity where
  type : String
  path : String
deriving DecidableEq

/-- The haste map: logical id to owning entity. -/
def HMap := List (String × HEntity)

instance : DecidableEq HMap := by unfold HMap; infer_instance

/-- Reading `map[name]` on a js object (missing key = `none`). -/
def hmGet (map : HMap) (name : String) : Option HEntity :=
  (map.find? (fun e => e.1 == name)).map (fun e => e.2)

/-- Js assignment `map[name] = mod`: any previous binding is replaced. -/
def hmSet (map : HMap) (name : String) (mod : HEntity) : HMap :=
  (name, mod) :: map.filter (fun e => e.1 ≠ name)

/-- Deleting every binding whose entity has the given path, as the
`_.each(... delete ...)` loop in `_processFileChange` does. -/
def hmDeletePath (map : HMap) (absPath : String) : HMap :=
  map.filter (fun e => e.2.path ≠ absPath)

/-- Embedding of `DependencyGraph._updateHasteMap(name, mod)`: if the id
already has an owner it is logged as a conflict, and the assignment is
skipped only when the newcomer is a `Package` while the owner is a
`Module`; in every other case the newcomer is assigned. -/
def updateHasteMap (map : HMap) (name : String) (mod : HEntity) : HMap :=
  match hmGet map name with
  | some existing =>
    if mod.type == ("Package") && existing.type == ("Module") then map
    else hmSet map name mod
  | none => hmSet map name mod

/-! ### The Module entity (src/Module.js). -/

/-- The directive object produced by `docblock.parseAsObject`, restricted
to the two directives `Module._read` inspects.

Modelled from the spec: the file `DependencyGraph/docblock.js` is not in
the sources; per the spec the reader "extracts a declared logical id (from
a docblock-style annotation)", so the parse result carries the optional
values of the `@providesModule` and `@provides` directives. -/
structure DocblockData where
  providesModule : Option String
  provides : Option String

/-- The record built by `Module._read`: `data.id` is set only when one of
the directives is present; no other field of `data` is ever assigned. -/
structure ModuleData where
  id : Option String
  dependencies : Option (List String)

/-- Leading run of non-whitespace characters, the js `/^(\S*)/` capture. -/
def firstToken (s : String) : String :=
  String.mk (s.data.takeWhile (fun c => ¬ c.isWhitespace))

/-- Embedding of `Module._read` applied to the raw file content: start
from an empty `data` object, and set `data.id` to the first token of
`providesModule || provides` when that value is truthy.  The
`dependencies` field is never assigned (it stays js `undefined`). -/
def moduleRead (doc : DocblockData) : ModuleData :=
  let idValue : Option String :=
    match doc.providesModule with
    | some v => some v
    | none => doc.provides
  match idValue with
  | some v => { id := some (firstToken v), dependencies := none }
  | none => { id := none, dependencies := none }

/-- Embedding of `Module.getDependencies()`: the `dependencies` field of
the record produced by `_read`. -/
def moduleGetDependencies (doc : DocblockData) : Option (List String) :=
  (moduleRead doc).dependencies

/-- Embedding of `Module.isHaste()`: `!!data.id`. -/
def moduleIsHaste (doc : DocblockData) : Bool := (moduleRead doc).id.isSome

/-- The stored fields of a constructed `Module`. -/
structure ModuleEntity where
  path : String
  type : String
deriving DecidableEq

/-- Embedding of the `Module` constructor: throw unless the file path is
absolute, otherwise store `path.resolve(file)` and the `Module` tag. -/
def ModuleEntity.make (file : String) : Except String ModuleEntity :=
  if isAbsolutePath file then
    Except.ok { path := resolvePath file, type := ("Module") }
  else
    Except.error (("Expected file to be absolute path but got ") ++ file)

/-- Embedding of `Module.hash()`. -/
def ModuleEntity.hash (m : ModuleEntity) : String := ("Module : ") ++ m.path

/-! ### The resolver engine (unnamed DependencyGraph source). -/

/-- The js `Array.prototype.lastIndexOf`. -/
def lastIndexOf (l : List String) (x : String) : Option Nat :=
  ((l.enum.filter (fun p => p.2 == x)).map (fun p => p.1)).getLast?

/-- Embedding of `DependencyGraph._isNodeModulesDir(file)`: normalize and
split the path, find the last `node_modules` component; without the
`providesModuleNodeModules` option (js `undefined`, modeled `none`) the
answer is `false`; otherwise the path is an excluded node-modules path
unless one of the configured directory names occurs after the last
`node_modules` component. -/
def isNodeModulesDir (provides : Option (List String)) (file : String) : Bool :=
  let parts := splitPath (normalizePath file)
  match lastIndexOf parts ("node_modules") with
  | none => false
  | some i =>
    let rest := parts.drop (i + 1)
    match provides with
    | none => false
    | some dirs => if dirs.any (fun d => rest.contains d) then false else true

/-- Environment of a resolution: the virtual filesystem, plus the two
capabilities the engine obtains from the module cache.

Modelled from the spec: `ModuleCache.js` and `Package.js` are not in the
sources.  `packageMain pkgJsonPath` is the resolved main entry of the
package descriptor ("main: resolved entry file, from a descriptor field,
default index"); `redirect fromPath specifier` is the requester's owning
package redirect map applied to the specifier ("applied to any requested
specifier before resolution continues"), the identity when the requester
has no owning package. -/
structure ResolveEnv where
  fs : FS
  packageMain : String → String
  redirect : String → String → String

/-- Embedding of `DependencyGraph._loadAsFile`: the candidate as-is, then
with a `.js` suffix, then `.json`; otherwise a rejection (`none`). -/
def loadAsFile (env : ResolveEnv) (potentialModulePath : String) : Option String :=
  if env.fs.fileExists potentialModulePath then some potentialModulePath
  else if env.fs.fileExists (potentialModulePath ++ (".js")) then
    some (potentialModulePath ++ (".js"))
  else if env.fs.fileExists (potentialModulePath ++ (".json")) then
    some (potentialModulePath ++ (".json"))
  else none

/-- Embedding of `DependencyGraph._loadAsDir`: fail unless the directory
exists; with a `package.json` inside, load the descriptor's main
file-then-directory (fuel bounds the recursion through package mains);
otherwise try `index` inside the directory. -/
def loadAsDir (env : ResolveEnv) : Nat → String → Option String
  | 0, _ => none
  | fuel + 1, potentialDirPath =>
    if !(env.fs.dirExists potentialDirPath) then none
    else
      let packageJsonPath := pathJoin potentialDirPath ("package.json")
      if env.fs.fileExists packageJsonPath then
        let main := env.packageMain packageJsonPath
        (loadAsFile env main) <|> loadAsDir env fuel main
      else
        loadAsFile env (pathJoin potentialDirPath ("index"))

/-- Embedding of `DependencyGraph._resolveNodeDependency(fromModule,
toModuleName)`.  The branch condition is the one in the source:
`toModuleName[0] === '.' || toModuleName[1] === '/'` (note the index 1 in
the second disjunct).  The first branch rewrites through the requester's
redirect map and performs a file-then-directory load at the specifier
itself when absolute, else at `join(dirname(fromModule.path), specifier)`.
The second branch rewrites and then probes
`join(ancestor, node_modules, name)` for every ancestor directory of the
requester, nearest first, stopping before the root, first success
winning (the initial rejected promise is `none`). -/
def resolveNodeDependency (env : ResolveEnv) (fuel : Nat)
    (fromPath toModuleName : String) : Option String :=
  if (strGet toModuleName 0 == some ('.')) || (strGet toModuleName 1 == some ('/')) then
    let potentialModulePath :=
      if isAbsolutePath toModuleName then toModuleName
      else pathJoin (dirname fromPath) toModuleName
    let realModuleName := env.redirect fromPath potentialModulePath
    (loadAsFile env realModuleName) <|> loadAsDir env fuel realModuleName
  else
    let realModuleName := env.redirect fromPath toModuleName
    let searchQueue :=
      (ancestorDirs (dirname fromPath)).map
        (fun currDir => pathJoin3 currDir ("node_modules") realModuleName)
    searchQueue.foldl
      (fun p potentialModulePath =>
        p <|> ((loadAsFile env potentialModulePath) <|>
                loadAsDir env fuel potentialModulePath))
      none

/-- Embedding of `resolutionHash(modulePath, depName)`. -/
def resolutionHash (modulePath depName : String) : String :=
  resolvePath modulePath ++ (":") ++ depName

/-- The resolution cache `_immediateResolutionCache`, an association of
hash keys to resolved entities (identified by canonical path).  Only
fulfilled results are ever assigned into it, so values are entity paths
and a stored value is always js-truthy. -/
def ResolutionCache := List (String × String)

instance : DecidableEq ResolutionCache := by unfold ResolutionCache; infer_instance

/-- Reading `cache[resHash]` on the cache object. -/
def cacheGet (cache : ResolutionCache) (resHash : String) : Option String :=
  (cache.find? (fun e => e.1 == resHash)).map (fun e => e.2)

/-- Outcome of one `resolveDependency` call: the returned value, the cache
afterwards, and whether the call was answered from the cache. -/
structure ResolveOutcome where
  result : Option String
  cache : ResolutionCache
  fromCache : Bool
deriving DecidableEq

/-- The strategy chain of one `resolveDependency` cache miss: for a bare
specifier (first character neither `.` nor `/`) from a requester that is
not under an excluded node-modules path, `_resolveHasteDependency` with
`_resolveNodeDependency` as its `catch` handler; otherwise only
`_resolveNodeDependency`.  `hasteRes` and `nodeRes` stand for the two
strategies (promise rejection modeled as `none`). -/
def resolveAttempt (provides : Option (List String))
    (hasteRes nodeRes : String → String → Option String)
    (fromPath toModuleName : String) : Option String :=
  if (!(isNodeModulesDir provides fromPath))
      && !(strGet toModuleName 0 == some ('.'))
      && !(strGet toModuleName 0 == some ('/')) then
    (hasteRes fromPath toModuleName) <|> nodeRes fromPath toModuleName
  else
    nodeRes fromPath toModuleName

/-- Embedding of `DependencyGraph.resolveDependency(fromModule,
toModuleName)`.  The truthiness test `if (cache[resHash])` answers from
the cache exactly when a value is stored (stored values are entity
objects, always truthy).  On a miss the strategy chain runs; a fulfilled
result is assigned into the cache by `cacheResult`; a rejection is
forgiven: a warning is logged and `null` is returned, and nothing is
assigned into the cache. -/
def resolveDependency (provides : Option (List String))
    (hasteRes nodeRes : String → String → Option String)
    (cache : ResolutionCache) (fromPath toModuleName : String) : ResolveOutcome :=
  let resHash := resolutionHash fromPath toModuleName
  match cacheGet cache resHash with
  | some cached => { result := some cached, cache := cache, fromCache := true }
  | none =>
    match resolveAttempt provides hasteRes nodeRes fromPath toModuleName with
    | some result =>
      { result := some result, cache := (resHash, result) :: cache, fromCache := false }
    | none => { result := none, cache := cache, fromCache := false }

/-- Embedding of `DependencyGraph._getAbsolutePath(filePath)`: an absolute
path is returned as-is (with no existence check); otherwise the first
configured root under which the joined path exists wins; `null` (`none`)
when every root fails. -/
def getAbsolutePath (fs : FS) (roots : List String) (filePath : String) : Option String :=
  if isAbsolutePath filePath then some filePath
  else
    roots.findSome? (fun root =>
      let absPath := pathJoin root filePath
      if fs.fileExists absPath then some absPath else none)

/-- `getOrderedDependencies` throws its user-facing `NotFoundError`
exactly when `_getAbsolutePath` returned `null` (the second `== null`
check in the source is on `path.resolve(absPath)`, which is never null). -/
def entryNotFound (fs : FS) (roots : List String) (entryPath : String) : Bool :=
  (getAbsolutePath fs roots entryPath).isNone

/-- The spec-side predicate for claim C9, following the spec's words: the
requested entry path exists under some configured root. -/
def existsUnderSomeRoot (fs : FS) (roots : List String) (p : String) : Bool :=
  roots.any (fun r => fs.fileExists (pathJoin r p))

/-! ### The invalidation controller (`_processFileChange`). -/

/-- The mutable state the change handler touches synchronously. -/
structure DGState where
  immediateResolutionCache : ResolutionCache
  hasteMap : HMap

/-- Embedding of `DependencyGraph._processFileChange(type, filePath, root,
fstat)`.  The very first statement replaces the resolution cache with a
fresh empty object, before any filtering; directory events, ignored paths
and excluded node-modules paths then return early.  For `delete` and
`change` events every haste-map entry owned by the changed path is
deleted, and `delete` events return.  The remaining work (re-reading the
changed file and re-registering it) is chained onto the `_loading`
promise: it is asynchronous, later mutates only the haste map, and never
touches the resolution cache, so it is outside this synchronous state
transition. -/
def processFileChange (ignoreFilePath : String → Bool)
    (provides : Option (List String)) (st : DGState)
    (type filePath root : String) (fstatIsDir : Option Bool) : DGState :=
  let st1 : DGState := { st with immediateResolutionCache := [] }
  let absPath := pathJoin root filePath
  if fstatIsDir.getD false || ignoreFilePath absPath || isNodeModulesDir provides absPath then
    st1
  else
    let st2 : DGState :=
      if type == ("delete") || type == ("change") then
        { st1 with hasteMap := hmDeletePath st1.hasteMap absPath }
      else st1
    st2

/-! ### Ordered graph collection (`getOrderedDependencies`).

The traversal is embedded over its two leaf queries: the declared
dependency specifiers of an entity (`mod.getDependencies()`) and the
resolution of one specifier from one entity
(`this.resolveDependency(mod, name)`).  Resolution is read-only, and the
haste map and filesystem are fixed during a traversal, so both are pure
functions of the entity (identified by its `hash()` key, the type
parameter `α`). -/

/-- The dependency structure a traversal runs over. -/
structure DepGraphModel (α : Type) where
  deps : α → List String
  resolve : α → String → Option α

/-- Embedding of the recursive `collect` closure.  The worklist is the
suffix of sibling dependencies still to process at the current node, as
built by the source's sequential promise chain `p = p.then(...)`:

* an entity's resolved, non-null dependencies (`filterMap`) are processed
  strictly in declared order;
* a dependency already in `visited` is skipped without re-traversal;
* an unvisited dependency is marked visited, emitted, and its whole
  subtree is collected before the next sibling is processed.

`fuel` bounds the recursion depth only to make the function total; it is
consumed on every step, and the theorems below show any sufficiently
large fuel gives the same completed traversal, so the bound is not a
behavioral ingredient. -/
def collectGo {α : Type} [DecidableEq α] (g : DepGraphModel α) :
    Nat → List α → List α → Option (List α × List α)
  | 0, [], visited => some ([], visited)
  | 0, _ :: _, _ => none
  | _ + 1, [], visited => some ([], visited)
  | fuel + 1, c :: cs, visited =>
    if c ∈ visited then collectGo g fuel cs visited
    else
      (collectGo g fuel ((g.deps c).filterMap (g.resolve c)) (c :: visited)).bind
        (fun r1 => (collectGo g fuel cs r1.2).bind
          (fun r2 => some (c :: (r1.1 ++ r2.1), r2.2)))

/-- Embedding of the body of `getOrderedDependencies` after the entry is
found: seed `visited` with the entry and collect it.  (The source marks
the entry visited and then calls `collect(entry)`, which emits it
unconditionally; starting `collectGo` on the worklist `[entry]` with an
empty visited set marks and emits the entry in the same single step.) -/
def getOrderedDeps {α : Type} [DecidableEq α] (g : DepGraphModel α)
    (fuel : Nat) (entry : α) : Option (List α) :=
  (collectGo g fuel [entry] []).map (fun r => r.1)

/-- Weight of one entity for the fuel bound: its emission step plus one
step per declared dependency. -/
def depWeight {α : Type} (g : DepGraphModel α) (m : α) : Nat :=
  1 + (g.deps m).length

/-- Fuel needed to finish a traversal from a worklist and visited set,
over a finite universe `U` of entities. -/
def potential {α : Type} [DecidableEq α] (g : DepGraphModel α) (U : Finset α)
    (lst visited : List α) : Nat :=
  lst.length + Finset.sum (U.filter (fun x => x ∉ visited)) (fun m => depWeight g m)

/-! ### Concrete fixtures used by the witnesses and counterexamples. -/

/-- The spec's ordering example: entry `A` requires `[B, C]` and `B`
requires `[C]`; specifiers resolve to the like-named entities. -/
def gABC : DepGraphModel String where
  deps := fun m =>
    if m = ("A") then [("B"), ("C")]
    else if m = ("B") then [("C")]
    else []
  resolve := fun _ s =>
    if s = ("A") then some ("A")
    else if s = ("B") then some ("B")
    else if s = ("C") then some ("C")
    else none

/-- The spec's cycle example: two modules requiring each other. -/
def gCyc : DepGraphModel String where
  deps := fun m =>
    if m = ("A") then [("B")]
    else if m = ("B") then [("A")]
    else []
  resolve := fun _ s =>
    if s = ("A") then some ("A")
    else if s = ("B") then some ("B")
    else none

/-- A resolution strategy that always fails (rejects). -/
def noRes : String → String → Option String := fun _ _ => none

/-- A resolution strategy that always resolves to the module `/m.js`. -/
def constRes : String → String → Option String := fun _ _ => some ("/m.js")

/-- Filesystem for the node-resolution counterexample: the requester
`/root/a.js` and an existing absolute target `/lib/x.js`. -/
def fsC4 : FS where
  files := [("/lib/x.js"), ("/root/a.js")]
  dirs := [("/"), ("/root"), ("/lib")]

/-- Resolution environment over `fsC4` with no package redirects. -/
def envC4 : ResolveEnv where
  fs := fsC4
  packageMain := fun _ => ("index")
  redirect := fun _ specifier => specifier

/-- An empty filesystem, for the entry-not-found counterexample. -/
def fsEmpty : FS where
  files := []
  dirs := []

/-! ## Library-style lemmas about the association-list operations -/

theorem hmGet_hmSet_self (map : HMap) (name : String) (mod : HEntity) :
    hmGet (hmSet map name mod) name = some mod := by
  unfold hmGet hmSet
  rw [List.find?_cons_of_pos _ (by simp)]
  rfl

theorem find?_filter_key (map : HMap) (name n' : String) (h : n' ≠ name) :
    (map.filter (fun e => e.1 ≠ name)).find? (fun e => e.1 == n') =
      map.find? (fun e => e.1 == n') := by
  induction map with
  | nil => rfl
  | cons e es ih =>
    by_cases hk : e.1 = name
    · have h1 : ¬ ((fun x : String × HEntity => x.1 == n') e = true) := by
        simp only [beq_iff_eq, hk]
        exact Ne.symm h
      rw [List.filter_cons_of_neg (by simp [hk]),
        @List.find?_cons_of_neg _ (fun x => x.1 == n') e es h1, ih]
    · rw [List.filter_cons_of_pos (by simp [hk])]
      by_cases h2 : e.1 = n'
      · rw [@List.find?_cons_of_pos _ (fun x => x.1 == n') e
            (es.filter (fun x => decide (x.1 ≠ name))) (by simp [h2]),
          @List.find?_cons_of_pos _ (fun x => x.1 == n') e es (by simp [h2])]
      · rw [@List.find?_cons_of_neg _ (fun x => x.1 == n') e
            (es.filter (fun x => decide (x.1 ≠ name))) (by simp [h2]),
          @List.find?_cons_of_neg _ (fun x => x.1 == n') e es (by simp [h2]), ih]

theorem hmGet_hmSet_other (map : HMap) (name n' : String) (mod : HEntity)
    (h : n' ≠ name) : hmGet (hmSet map name mod) n' = hmGet map n' := by
  unfold hmGet hmSet
  rw [List.find?_cons_of_neg _ (by simp only [beq_iff_eq]; exact Ne.symm h),
    find?_filter_key map name n' h]

theorem hmSet_keys_nodup (map : HMap) (name : String) (mod : HEntity)
    (h : (map.map Prod.fst).Nodup) :
    ((hmSet map name mod).map Prod.fst).Nodup := by
  unfold hmSet
  simp only [List.map_cons]
  refine List.nodup_cons.mpr ⟨?_, ?_⟩
  · intro hmem
    obtain ⟨e, he, hfst⟩ := List.mem_map.mp hmem
    have hef := List.of_mem_filter he
    simp only [decide_not, Bool.not_eq_true', decide_eq_false_iff_not] at hef
    exact hef hfst
  · exact h.sublist ((List.filter_sublist _).map _)

theorem cacheGet_cons_self (cache : ResolutionCache) (k v : String) :
    cacheGet ((k, v) :: cache) k = some v := by
  unfold cacheGet
  rw [List.find?_cons_of_pos _ (by simp)]
  rfl

theorem isAbsolutePath_append_slash (s : String) : isAbsolutePath (("/") ++ s) = true := by
  cases s with
  | mk data => rfl

theorem isAbsolutePath_resolvePath (file : String) (h : isAbsolutePath file = true) :
    isAbsolutePath (resolvePath file) = true := by
  unfold resolvePath normalizePath
  rw [if_pos h]
  exact isAbsolutePath_append_slash _

theorem updateHasteMap_nonpackage_self (map : HMap) (name : String) (mod : HEntity)
    (h : (mod.type == ("Package")) = false) :
    hmGet (updateHasteMap map name mod) name = some mod := by
  unfold updateHasteMap
  cases hg : hmGet map name with
  | none => exact hmGet_hmSet_self map name mod
  | some ex => simp [h, hmGet_hmSet_self]

theorem updateHasteMap_package_over_module (map : HMap) (name : String)
    (mod existing : HEntity) (hex : hmGet map name = some existing)
    (hcond : ((mod.type == ("Package")) && (existing.type == ("Module"))) = true) :
    updateHasteMap map name mod = map := by
  unfold updateHasteMap
  rw [hex]
  dsimp only
  rw [if_pos hcond]

theorem probe_findSome?_eq_none (fs : FS) (p : String) (roots : List String) :
    (roots.findSome? (fun root =>
        if fs.fileExists (pathJoin root p) then some (pathJoin root p) else none)) = none
      ↔ ∀ r ∈ roots, fs.fileExists (pathJoin r p) = false := by
  induction roots with
  | nil => simp [List.findSome?_nil]
  | cons r rs ih =>
    rw [List.findSome?_cons]
    by_cases hf : fs.fileExists (pathJoin r p) = true
    · simp [hf]
    · have hf' : fs.fileExists (pathJoin r p) = false := by
        cases hfe : fs.fileExists (pathJoin r p)
        · rfl
        · exact absurd hfe hf
      simp [hf', ih]

/-! ## Traversal lemmas for claims C1 and C8 -/

theorem collectGo_nil {α : Type} [DecidableEq α] (g : DepGraphModel α)
    (fuel : Nat) (vis : List α) : collectGo g fuel [] vis = some ([], vis) := by
  cases fuel <;> simp only [collectGo]

/-- Everything visited after a traversal step is either previously
visited or emitted by the step, and conversely. -/
theorem collectGo_visited {α : Type} [DecidableEq α] (g : DepGraphModel α) :
    ∀ (fuel : Nat) (lst vis out vis' : List α),
      collectGo g fuel lst vis = some (out, vis') →
      ∀ x, x ∈ vis' ↔ (x ∈ vis ∨ x ∈ out) := by
  intro fuel
  induction fuel with
  | zero =>
    intro lst vis out vis' h x
    cases lst with
    | nil =>
      rw [collectGo_nil] at h
      simp only [Option.some.injEq, Prod.mk.injEq] at h
      obtain ⟨rfl, rfl⟩ := h
      simp
    | cons c cs =>
      simp only [collectGo] at h
      exact absurd h (by simp)
  | succ fuel ih =>
    intro lst vis out vis' h x
    cases lst with
    | nil =>
      rw [collectGo_nil] at h
      simp only [Option.some.injEq, Prod.mk.injEq] at h
      obtain ⟨rfl, rfl⟩ := h
      simp
    | cons c cs =>
      simp only [collectGo] at h
      by_cases hc : c ∈ vis
      · rw [if_pos hc] at h
        exact ih cs vis out vis' h x
      · rw [if_neg hc] at h
        cases h1 : collectGo g fuel ((g.deps c).filterMap (g.resolve c)) (c :: vis) with
        | none =>
          rw [h1, Option.none_bind] at h
          exact absurd h (by simp)
        | some r1 =>
          obtain ⟨out1, vis1⟩ := r1
          rw [h1, Option.some_bind] at h
          dsimp only at h
          cases h2 : collectGo g fuel cs vis1 with
          | none =>
            rw [h2, Option.none_bind] at h
            exact absurd h (by simp)
          | some r2 =>
            obtain ⟨out2, vis2⟩ := r2
            rw [h2, Option.some_bind] at h
            dsimp only at h
            simp only [Option.some.injEq, Prod.mk.injEq] at h
            obtain ⟨rfl, rfl⟩ := h
            have hA := ih _ _ _ _ h1 x
            have hB := ih _ _ _ _ h2 x
            simp only [List.mem_cons, List.mem_append] at hA hB ⊢
            tauto

/-- The emitted list of a traversal step has no duplicates and is
disjoint from the initially visited set. -/
theorem collectGo_nodup {α : Type} [DecidableEq α] (g : DepGraphModel α) :
    ∀ (fuel : Nat) (lst vis out vis' : List α),
      collectGo g fuel lst vis = some (out, vis') →
      out.Nodup ∧ ∀ x ∈ out, x ∉ vis := by
  intro fuel
  induction fuel with
  | zero =>
    intro lst vis out vis' h
    cases lst with
    | nil =>
      rw [collectGo_nil] at h
      simp only [Option.some.injEq, Prod.mk.injEq] at h
      obtain ⟨rfl, rfl⟩ := h
      simp
    | cons c cs =>
      simp only [collectGo] at h
      exact absurd h (by simp)
  | succ fuel ih =>
    intro lst vis out vis' h
    cases lst with
    | nil =>
      rw [collectGo_nil] at h
      simp only [Option.some.injEq, Prod.mk.injEq] at h
      obtain ⟨rfl, rfl⟩ := h
      simp
    | cons c cs =>
      simp only [collectGo] at h
      by_cases hc : c ∈ vis
      · rw [if_pos hc] at h
        exact ih cs vis out vis' h
      · rw [if_neg hc] at h
        cases h1 : collectGo g fuel ((g.deps c).filterMap (g.resolve c)) (c :: vis) with
        | none =>
          rw [h1, Option.none_bind] at h
          exact absurd h (by simp)
        | some r1 =>
          obtain ⟨out1, vis1⟩ := r1
          rw [h1, Option.some_bind] at h
          dsimp only at h
          cases h2 : collectGo g fuel cs vis1 with
          | none =>
            rw [h2, Option.none_bind] at h
            exact absurd h (by simp)
          | some r2 =>
            obtain ⟨out2, vis2⟩ := r2
            rw [h2, Option.some_bind] at h
            dsimp only at h
            simp only [Option.some.injEq, Prod.mk.injEq] at h
            obtain ⟨rfl, rfl⟩ := h
            obtain ⟨hnd1, hfresh1⟩ := ih _ _ _ _ h1
            obtain ⟨hnd2, hfresh2⟩ := ih _ _ _ _ h2
            have hvis1 := collectGo_visited g fuel _ _ _ _ h1
            have hcnot1 : c ∉ out1 := fun hmem =>
              (hfresh1 c hmem) (List.mem_cons_self c vis)
            have hcnot2 : c ∉ out2 := fun hmem =>
              (hfresh2 c hmem) ((hvis1 c).mpr (Or.inl (List.mem_cons_self c vis)))
            have hdisj : out1.Disjoint out2 := fun a ha1 ha2 =>
              (hfresh2 a ha2) ((hvis1 a).mpr (Or.inr ha1))
            have hout1vis : ∀ x ∈ out1, x ∉ vis := fun x hx hxv =>
              (hfresh1 x hx) (List.mem_cons_of_mem c hxv)
            have hout2vis : ∀ x ∈ out2, x ∉ vis := fun x hx hxv =>
              (hfresh2 x hx) ((hvis1 x).mpr (Or.inl (List.mem_cons_of_mem c hxv)))
            constructor
            · refine List.nodup_cons.mpr ⟨?_, List.Nodup.append hnd1 hnd2 hdisj⟩
              simp only [List.mem_append]
              rintro (hmem | hmem)
              · exact hcnot1 hmem
              · exact hcnot2 hmem
            · intro x hx
              simp only [List.mem_cons, List.mem_append] at hx
              rcases hx with rfl | hmem | hmem
              · exact hc
              · exact hout1vis x hmem
              · exact hout2vis x hmem

/-- Every worklist entry ends up visited, and every resolvable dependency
of every emitted entity ends up visited. -/
theorem collectGo_complete {α : Type} [DecidableEq α] (g : DepGraphModel α) :
    ∀ (fuel : Nat) (lst vis out vis' : List α),
      collectGo g fuel lst vis = some (out, vis') →
      (∀ c ∈ lst, c ∈ vis') ∧
      (∀ m ∈ out, ∀ d ∈ (g.deps m).filterMap (g.resolve m), d ∈ vis') := by
  intro fuel
  induction fuel with
  | zero =>
    intro lst vis out vis' h
    cases lst with
    | nil =>
      rw [collectGo_nil] at h
      simp only [Option.some.injEq, Prod.mk.injEq] at h
      obtain ⟨rfl, rfl⟩ := h
      simp
    | cons c cs =>
      simp only [collectGo] at h
      exact absurd h (by simp)
  | succ fuel ih =>
    intro lst vis out vis' h
    cases lst with
    | nil =>
      rw [collectGo_nil] at h
      simp only [Option.some.injEq, Prod.mk.injEq] at h
      obtain ⟨rfl, rfl⟩ := h
      simp
    | cons c cs =>
      simp only [collectGo] at h
      by_cases hc : c ∈ vis
      · rw [if_pos hc] at h
        have hmain := ih cs vis out vis' h
        have hmono := collectGo_visited g fuel cs vis out vis' h
        refine ⟨?_, hmain.2⟩
        intro c' hc'
        rcases List.mem_cons.mp hc' with rfl | hmem
        · exact (hmono c').mpr (Or.inl hc)
        · exact hmain.1 c' hmem
      · rw [if_neg hc] at h
        cases h1 : collectGo g fuel ((g.deps c).filterMap (g.resolve c)) (c :: vis) with
        | none =>
          rw [h1, Option.none_bind] at h
          exact absurd h (by simp)
        | some r1 =>
          obtain ⟨out1, vis1⟩ := r1
          rw [h1, Option.some_bind] at h
          dsimp only at h
          cases h2 : collectGo g fuel cs vis1 with
          | none =>
            rw [h2, Option.none_bind] at h
            exact absurd h (by simp)
          | some r2 =>
            obtain ⟨out2, vis2⟩ := r2
            rw [h2, Option.some_bind] at h
            dsimp only at h
            simp only [Option.some.injEq, Prod.mk.injEq] at h
            obtain ⟨rfl, rfl⟩ := h
            obtain ⟨hlst1, hout1⟩ := ih _ _ _ _ h1
            obtain ⟨hlst2, hout2⟩ := ih _ _ _ _ h2
            have hvis1 := collectGo_visited g fuel _ _ _ _ h1
            have hvis2 := collectGo_visited g fuel _ _ _ _ h2
            have hmono12 : ∀ x, x ∈ vis1 → x ∈ vis2 := fun x hx =>
              (hvis2 x).mpr (Or.inl hx)
            constructor
            · intro c' hc'
              rcases List.mem_cons.mp hc' with rfl | hmem
              · exact hmono12 c' ((hvis1 c').mpr (Or.inl (List.mem_cons_self _ _)))
              · exact hlst2 c' hmem
            · intro m hm d hd
              rcases List.mem_cons.mp hm with rfl | hmem
              · exact hmono12 d (hlst1 d hd)
              · rcases List.mem_append.mp hmem with hmem1 | hmem2
                · exact hmono12 d (hout1 m hmem1 d hd)
                · exact hout2 m hmem2 d hd

/-- Over a finite entity universe closed under resolution, the traversal
completes whenever the fuel is at least the `potential` of its starting
state: fuel exhaustion is impossible because each recursive descent marks
a new universe element visited. -/
theorem collectGo_isSome {α : Type} [DecidableEq α] (g : DepGraphModel α) (U : Finset α)
    (hU : ∀ m ∈ U, ∀ s ∈ g.deps m,
      (g.resolve m s = none) ∨ ∃ d ∈ U, g.resolve m s = some d) :
    ∀ (fuel : Nat) (lst vis : List α), (∀ c ∈ lst, c ∈ U) →
      potential g U lst vis ≤ fuel → (collectGo g fuel lst vis).isSome = true := by
  intro fuel
  induction fuel with
  | zero =>
    intro lst vis hlst hpot
    have hnil : lst = [] := by
      refine List.length_eq_zero.mp ?_
      have := Nat.le_zero.mp hpot
      unfold potential at this
      omega
    subst hnil
    rw [collectGo_nil]
    rfl
  | succ fuel ih =>
    intro lst vis hlst hpot
    cases lst with
    | nil =>
      rw [collectGo_nil]
      rfl
    | cons c cs =>
      simp only [collectGo]
      by_cases hc : c ∈ vis
      · rw [if_pos hc]
        refine ih cs vis (fun x hx => hlst x (List.mem_cons_of_mem c hx)) ?_
        unfold potential at hpot ⊢
        simp only [List.length_cons] at hpot
        omega
      · rw [if_neg hc]
        have hcU : c ∈ U := hlst c (List.mem_cons_self c cs)
        have hfilter : U.filter (fun x => x ∉ c :: vis)
            = (U.filter (fun x => x ∉ vis)).erase c := by
          ext x
          simp only [Finset.mem_filter, Finset.mem_erase, List.mem_cons]
          tauto
        have hcmem : c ∈ U.filter (fun x => x ∉ vis) := Finset.mem_filter.mpr ⟨hcU, hc⟩
        have hsum : Finset.sum ((U.filter (fun x => x ∉ vis)).erase c)
              (fun m => depWeight g m) + depWeight g c
            = Finset.sum (U.filter (fun x => x ∉ vis)) (fun m => depWeight g m) :=
          Finset.sum_erase_add _ _ hcmem
        have hdw : depWeight g c = 1 + (g.deps c).length := rfl
        have hchildU : ∀ d ∈ (g.deps c).filterMap (g.resolve c), d ∈ U := by
          intro d hd
          obtain ⟨s, hs, hres⟩ := List.mem_filterMap.mp hd
          rcases hU c hcU s hs with hnone | ⟨d', hd', heq⟩
          · rw [hnone] at hres
            exact absurd hres (by simp)
          · rw [heq] at hres
            exact (Option.some.inj hres) ▸ hd'
        have hlen : ((g.deps c).filterMap (g.resolve c)).length ≤ (g.deps c).length :=
          List.length_filterMap_le _ _
        have hpot1 : potential g U ((g.deps c).filterMap (g.resolve c)) (c :: vis) ≤ fuel := by
          unfold potential at hpot ⊢
          rw [hfilter]
          simp only [List.length_cons] at hpot
          omega
        obtain ⟨r1, h1⟩ := Option.isSome_iff_exists.mp (ih _ _ hchildU hpot1)
        obtain ⟨out1, vis1⟩ := r1
        have hvis1 := collectGo_visited g fuel _ _ _ _ h1
        have hsub : U.filter (fun x => x ∉ vis1) ⊆ U.filter (fun x => x ∉ c :: vis) := by
          intro x hx
          simp only [Finset.mem_filter] at hx ⊢
          exact ⟨hx.1, fun hmem => hx.2 ((hvis1 x).mpr (Or.inl hmem))⟩
        have hsumle : Finset.sum (U.filter (fun x => x ∉ vis1)) (fun m => depWeight g m)
            ≤ Finset.sum (U.filter (fun x => x ∉ c :: vis)) (fun m => depWeight g m) :=
          Finset.sum_le_sum_of_subset hsub
        have hpot2 : potential g U cs vis1 ≤ fuel := by
          unfold potential at hpot ⊢
          rw [hfilter] at hsumle
          simp only [List.length_cons] at hpot
          omega
        obtain ⟨r2, h2⟩ := Option.isSome_iff_exists.mp
          (ih cs vis1 (fun x hx => hlst x (List.mem_cons_of_mem c hx)) hpot2)
        obtain ⟨out2, vis2⟩ := r2
        rw [h1, Option.some_bind]
        dsimp only
        rw [h2, Option.some_bind]
        rfl

/-! ## Claim C1 -/

/-- C1: a completed `getOrderedDependencies` traversal emits the entry
first; every entity appears exactly once; every resolvable dependency of
every collected entity is itself collected (each unvisited resolvable
dependency's whole subtree is collected when the traversal reaches it,
which is what membership of every resolved dependency plus the
deterministic sequential order of the embedded promise chain amount to);
and the sequence is a function of the graph, hence deterministic for a
fixed file tree and declaration order.  The final conjunct checks the
spec's example: entry `A` requiring `[B, C]` with `B` requiring `[C]`
collects `[A, B, C]` (C once, under B). -/
theorem claim_C1_collect_preorder :
    (∀ (α : Type) [DecidableEq α] (g : DepGraphModel α) (fuel : Nat) (entry : α)
        (out : List α), getOrderedDeps g fuel entry = some out →
        out.head? = some entry ∧ out.Nodup ∧
        (∀ m ∈ out, ∀ s ∈ g.deps m, ∀ d, g.resolve m s = some d → d ∈ out) ∧
        (∀ out', getOrderedDeps g fuel entry = some out' → out' = out)) ∧
    getOrderedDeps gABC 10 ("A") = some [("A"), ("B"), ("C")] := by
  constructor
  · intro α _ g fuel entry out h
    have hcol : ∃ vis', collectGo g fuel [entry] [] = some (out, vis') := by
      unfold getOrderedDeps at h
      cases hc : collectGo g fuel [entry] [] with
      | none =>
        rw [hc] at h
        exact absurd h (by simp)
      | some r =>
        obtain ⟨o, v⟩ := r
        rw [hc] at h
        simp only [Option.map_some'] at h
        obtain rfl : o = out := Option.some.inj h
        exact ⟨v, rfl⟩
    obtain ⟨vis', hcol⟩ := hcol
    have hhead : out.head? = some entry := by
      cases fuel with
      | zero =>
        simp only [collectGo] at hcol
        exact absurd hcol (by simp)
      | succ fuel =>
        simp only [collectGo] at hcol
        rw [if_neg (List.not_mem_nil entry)] at hcol
        cases h1 : collectGo g fuel ((g.deps entry).filterMap (g.resolve entry))
            (entry :: []) with
        | none =>
          rw [h1, Option.none_bind] at hcol
          exact absurd hcol (by simp)
        | some r1 =>
          obtain ⟨out1, vis1⟩ := r1
          rw [h1, Option.some_bind] at hcol
          dsimp only at hcol
          rw [collectGo_nil, Option.some_bind] at hcol
          dsimp only at hcol
          simp only [Option.some.injEq, Prod.mk.injEq] at hcol
          obtain ⟨rfl, rfl⟩ := hcol
          rfl
    have hnodup := (collectGo_nodup g fuel _ _ _ _ hcol).1
    have hcomp := (collectGo_complete g fuel _ _ _ _ hcol).2
    have hvis := collectGo_visited g fuel _ _ _ _ hcol
    have hclosure : ∀ m ∈ out, ∀ s ∈ g.deps m, ∀ d, g.resolve m s = some d → d ∈ out := by
      intro m hm s hs d hres
      have hd : d ∈ (g.deps m).filterMap (g.resolve m) :=
        List.mem_filterMap.mpr ⟨s, hs, hres⟩
      rcases (hvis d).mp (hcomp m hm d hd) with hin | hin
      · exact absurd hin (List.not_mem_nil d)
      · exact hin
    refine ⟨hhead, hnodup, hclosure, ?_⟩
    intro out' h'
    rw [h] at h'
    exact (Option.some.inj h').symm
  · decide

/-- C1 witness: the general pre-order properties applied to the concrete
`A`, `B`, `C` example traversal. -/
theorem claim_C1_witness :
    getOrderedDeps gABC 10 ("A") = some [("A"), ("B"), ("C")] ∧
    ([("A"), ("B"), ("C")] : List String).head? = some ("A") ∧
    ([("A"), ("B"), ("C")] : List String).Nodup := by
  have h := claim_C1_collect_preorder.1 String gABC 10 ("A")
    [("A"), ("B"), ("C")] (by decide)
  exact ⟨by decide, h.1, h.2.1⟩

/-! ## Claim C8 -/

/-- C8: over any finite entity universe closed under resolution — cycles
included — the recursive collection completes: with fuel at least one
more than the total dependency weight of the universe, `collectGo`
returns a result (no fuel exhaustion, which in the fuel-free source means
no infinite recursion: every entity is marked visited before its subtree
is collected, already-visited entities are skipped without re-traversal,
and the visited set only grows), and the emitted list contains each
entity at most once.  The final conjunct checks the spec's cycle example:
two modules requiring each other collect as `[A, B]`, each exactly
once. -/
theorem claim_C8_collect_terminates :
    (∀ (α : Type) [DecidableEq α] (g : DepGraphModel α) (U : Finset α) (fuel : Nat)
        (entry : α), entry ∈ U →
        (∀ m ∈ U, ∀ s ∈ g.deps m,
          (g.resolve m s = none) ∨ ∃ d ∈ U, g.resolve m s = some d) →
        1 + Finset.sum U (fun m => depWeight g m) ≤ fuel →
        ∃ out, getOrderedDeps g fuel entry = some out ∧ out.Nodup) ∧
    getOrderedDeps gCyc 10 ("A") = some [("A"), ("B")] := by
  constructor
  · intro α _ g U fuel entry hentry hclosed hfuel
    have hpot : potential g U [entry] [] ≤ fuel := by
      unfold potential
      have hU : U.filter (fun x => x ∉ ([] : List α)) = U :=
        Finset.filter_true_of_mem (fun x _ => List.not_mem_nil x)
      rw [hU]
      simp only [List.length_cons, List.length_nil]
      omega
    have hsome := collectGo_isSome g U hclosed fuel [entry] []
      (fun c hc => by
        rcases List.mem_cons.mp hc with rfl | hmem
        · exact hentry
        · exact absurd hmem (List.not_mem_nil c))
      hpot
    obtain ⟨⟨out, vis'⟩, hcol⟩ := Option.isSome_iff_exists.mp hsome
    refine ⟨out, ?_, (collectGo_nodup g fuel _ _ _ _ hcol).1⟩
    unfold getOrderedDeps
    rw [hcol]
    rfl
  · decide

/-- C8 witness: termination and uniqueness applied to the concrete
two-module cycle over the universe containing both modules. -/
theorem claim_C8_witness :
    ∃ out, getOrderedDeps gCyc 10 ("A") = some out ∧ out.Nodup :=
  claim_C8_collect_terminates.1 String gCyc ({("A"), ("B")} : Finset String) 10 ("A")
    (by decide) (by decide) (by decide)

/-! ## Claim C2 -/

/-- C2: the claim says `Module.getDependencies()` yields exactly the
file's declared dependency specifiers.  This theorem evaluates the
embedded reader: `_read` in `src/Module.js` builds `data` from
`docblock.parseAsObject` and only ever assigns `data.id`, so
`getDependencies()` resolves to js `undefined` (`none`) for every module
file, never to the declared specifier list — the code, not the claim, is
wrong (its own caller `getOrderedDependencies` immediately applies
`depNames.map`, which requires an array). -/
theorem claim_C2_read_never_extracts_dependencies (doc : DocblockData) :
    moduleGetDependencies doc = none := by
  obtain ⟨pm, pr⟩ := doc
  cases pm <;> cases pr <;> rfl

/-! ## Claim C3 -/

/-- C3 counterexample: the claim says a total resolution failure stores
`null` in the cache and the second identical call returns the cached
`null` without re-running the lookup.  With both strategies failing, the
first call is forgiven (`null` returned) but nothing is stored — the
cache is still empty — and the second identical call is not served from
the cache (it re-runs the whole lookup). -/
theorem claim_C3_counterexample :
    (resolveDependency none noRes noRes [] ("/a/b.js") ("./c")).result = none ∧
    (resolveDependency none noRes noRes [] ("/a/b.js") ("./c")).cache = [] ∧
    (resolveDependency none noRes noRes
        ((resolveDependency none noRes noRes [] ("/a/b.js") ("./c")).cache)
        ("/a/b.js") ("./c")).fromCache = false := by
  decide

/-- C3 (amended): two identical `resolveDependency` calls with no
intervening filesystem change yield identical results, and the second
call leaves the cache unchanged.  When the first call succeeds, its
result is cached and the second call is served from the cache; when the
first call totally fails, it returns `null` without caching anything, so
the second identical call re-runs the lookup (and again returns
`null`). -/
theorem claim_C3_resolution_idempotent_cache (provides : Option (List String))
    (hasteRes nodeRes : String → String → Option String)
    (cache : ResolutionCache) (fromPath toModuleName : String) :
    (resolveDependency provides hasteRes nodeRes
        ((resolveDependency provides hasteRes nodeRes cache fromPath toModuleName).cache)
        fromPath toModuleName).result
      = (resolveDependency provides hasteRes nodeRes cache fromPath toModuleName).result ∧
    (resolveDependency provides hasteRes nodeRes
        ((resolveDependency provides hasteRes nodeRes cache fromPath toModuleName).cache)
        fromPath toModuleName).cache
      = (resolveDependency provides hasteRes nodeRes cache fromPath toModuleName).cache ∧
    (∀ e, (resolveDependency provides hasteRes nodeRes cache fromPath toModuleName).result
        = some e →
      (resolveDependency provides hasteRes nodeRes
          ((resolveDependency provides hasteRes nodeRes cache fromPath toModuleName).cache)
          fromPath toModuleName).fromCache = true) ∧
    ((resolveDependency provides hasteRes nodeRes cache fromPath toModuleName).result = none →
      (resolveDependency provides hasteRes nodeRes cache fromPath toModuleName).cache = cache ∧
      (resolveDependency provides hasteRes nodeRes
          ((resolveDependency provides hasteRes nodeRes cache fromPath toModuleName).cache)
          fromPath toModuleName).fromCache = false) := by
  cases hget : cacheGet cache (resolutionHash fromPath toModuleName) with
  | some v =>
    have h1 : resolveDependency provides hasteRes nodeRes cache fromPath toModuleName
        = { result := some v, cache := cache, fromCache := true } := by
      simp only [resolveDependency]
      rw [hget]
    have h2 : resolveDependency provides hasteRes nodeRes
        (resolveDependency provides hasteRes nodeRes cache fromPath toModuleName).cache
        fromPath toModuleName
        = { result := some v, cache := cache, fromCache := true } := by
      rw [h1]
      exact h1
    refine ⟨?_, ?_, fun e _ => ?_, fun hnone => ?_⟩
    · rw [h2, h1]
    · rw [h2, h1]
    · rw [h2]
    · rw [h1] at hnone
      exact absurd hnone (by simp)
  | none =>
    cases hatt : resolveAttempt provides hasteRes nodeRes fromPath toModuleName with
    | some r =>
      have h1 : resolveDependency provides hasteRes nodeRes cache fromPath toModuleName
          = { result := some r,
              cache := (resolutionHash fromPath toModuleName, r) :: cache,
              fromCache := false } := by
        simp only [resolveDependency]
        rw [hget, hatt]
      have h2 : resolveDependency provides hasteRes nodeRes
          (resolveDependency provides hasteRes nodeRes cache fromPath toModuleName).cache
          fromPath toModuleName
          = { result := some r,
              cache := (resolutionHash fromPath toModuleName, r) :: cache,
              fromCache := true } := by
        rw [h1]
        simp only [resolveDependency]
        rw [cacheGet_cons_self]
      refine ⟨?_, ?_, fun e _ => ?_, fun hnone => ?_⟩
      · rw [h2, h1]
      · rw [h2, h1]
      · rw [h2]
      · rw [h1] at hnone
        exact absurd hnone (by simp)
    | none =>
      have h1 : resolveDependency provides hasteRes nodeRes cache fromPath toModuleName
          = { result := none, cache := cache, fromCache := false } := by
        simp only [resolveDependency]
        rw [hget, hatt]
      have h2 : resolveDependency provides hasteRes nodeRes
          (resolveDependency provides hasteRes nodeRes cache fromPath toModuleName).cache
          fromPath toModuleName
          = { result := none, cache := cache, fromCache := false } := by
        rw [h1]
        exact h1
      refine ⟨?_, ?_, fun e he => ?_, fun _ => ⟨?_, ?_⟩⟩
      · rw [h2, h1]
      · rw [h2, h1]
      · rw [h1] at he
        exact absurd he (by simp)
      · rw [h1]
      · rw [h2]

/-- C3 witness: the amended caching behavior at a concrete successful
resolution — the second identical call is served from the cache. -/
theorem claim_C3_witness :
    (resolveDependency none constRes noRes
        ((resolveDependency none constRes noRes [] ("/a.js") ("x")).cache)
        ("/a.js") ("x")).fromCache = true :=
  (claim_C3_resolution_idempotent_cache none constRes noRes [] ("/a.js") ("x")).2.2.1
    ("/m.js") (by decide)

/-! ## Claim C4 -/

/-- C4: the claim says `_resolveNodeDependency` takes the
relative/absolute branch exactly when the specifier's first character is
`.` or `/`.  Evaluating the embedding at the failing input: the requester
`/root/a.js` asks for the absolute specifier `/lib/x.js`, which exists as
a file (a file-then-directory load at the specifier succeeds), yet the
source condition `toModuleName[0] === '.' || toModuleName[1] === '/'`
classifies it as bare, sends it to the node_modules ancestor search, and
the whole resolution fails.  The last conjuncts show the same condition
misclassifies the bare specifier `a/b` (first character neither `.` nor
`/`) into the relative/absolute branch. -/
theorem claim_C4_node_resolution_misclassifies :
    resolveNodeDependency envC4 10 ("/root/a.js") ("/lib/x.js") = none ∧
    loadAsFile envC4 ("/lib/x.js") = some ("/lib/x.js") ∧
    ((strGet ("/lib/x.js") 0 == some ('.')) || (strGet ("/lib/x.js") 0 == some ('/'))) = true ∧
    ((strGet ("/lib/x.js") 0 == some ('.')) || (strGet ("/lib/x.js") 1 == some ('/'))) = false ∧
    ((strGet ("a/b") 0 == some ('.')) || (strGet ("a/b") 0 == some ('/'))) = false ∧
    ((strGet ("a/b") 0 == some ('.')) || (strGet ("a/b") 1 == some ('/'))) = true := by
  decide

/-! ## Claim C5 -/

/-- C5 counterexample: two Modules registering the same logical id.  The
claim says the second registration is rejected and the existing owner
kept (the only stated exception being Package-then-Module), but
`_updateHasteMap` assigns the newcomer whenever the newcomer is not a
Package arriving over a Module, so the second Module replaces the
first. -/
theorem claim_C5_counterexample :
    hmGet (updateHasteMap (updateHasteMap [] ("X") (HEntity.mk ("Module") ("/a.js")))
        ("X") (HEntity.mk ("Module") ("/b.js"))) ("X")
      = some (HEntity.mk ("Module") ("/b.js")) ∧
    HEntity.mk ("Module") ("/b.js") ≠ HEntity.mk ("Module") ("/a.js") := by
  decide

/-- C5 (amended): at most one owner per logical id (key uniqueness is
preserved), and a registration for an id that already has an owner
replaces the owner — logged as a conflict — except that a Package
arriving when the owner is a Module is rejected and the Module kept
(Modules outrank Packages); registrations for other ids are
untouched. -/
theorem claim_C5_name_index_invariant (map : HMap) (name : String) (mod : HEntity) :
    (∀ existing, hmGet map name = some existing →
      mod.type = ("Package") → existing.type = ("Module") →
        updateHasteMap map name mod = map) ∧
    (∀ existing, hmGet map name = some existing →
      ¬ (mod.type = ("Package") ∧ existing.type = ("Module")) →
        hmGet (updateHasteMap map name mod) name = some mod) ∧
    (hmGet map name = none → hmGet (updateHasteMap map name mod) name = some mod) ∧
    (∀ n', n' ≠ name → hmGet (updateHasteMap map name mod) n' = hmGet map n') ∧
    ((map.map Prod.fst).Nodup → ((updateHasteMap map name mod).map Prod.fst).Nodup) := by
  refine ⟨?_, ?_, ?_, ?_, ?_⟩
  · intro existing hex hp hm
    simp [updateHasteMap, hex, hp, hm]
  · intro existing hex hne
    by_cases h1 : mod.type = ("Package")
    · by_cases h2 : existing.type = ("Module")
      · exact absurd ⟨h1, h2⟩ hne
      · simp [updateHasteMap, hex, h2, hmGet_hmSet_self]
    · simp [updateHasteMap, hex, h1, hmGet_hmSet_self]
  · intro hnone
    simp [updateHasteMap, hnone, hmGet_hmSet_self]
  · intro n' hne
    unfold updateHasteMap
    cases hg : hmGet map name with
    | none => exact hmGet_hmSet_other map name n' mod hne
    | some existing =>
      dsimp only
      split
      · rfl
      · exact hmGet_hmSet_other map name n' mod hne
  · intro hnd
    unfold updateHasteMap
    cases hg : hmGet map name with
    | none => exact hmSet_keys_nodup map name mod hnd
    | some existing =>
      dsimp only
      split
      · exact hnd
      · exact hmSet_keys_nodup map name mod hnd

/-- C5 witness: the amended replacement rule applied at a concrete map
with an existing Module owner and a Module newcomer. -/
theorem claim_C5_witness :
    hmGet (updateHasteMap [(("X"), HEntity.mk ("Module") ("/a.js"))]
        ("X") (HEntity.mk ("Module") ("/b.js"))) ("X")
      = some (HEntity.mk ("Module") ("/b.js")) :=
  (claim_C5_name_index_invariant [(("X"), HEntity.mk ("Module") ("/a.js"))]
      ("X") (HEntity.mk ("Module") ("/b.js"))).2.1
    (HEntity.mk ("Module") ("/a.js")) (by decide) (by decide)

/-! ## Claim C6 -/

/-- C6: a Module and a Package declaring the same logical id may register
in either order; the Module ends up the owner both ways (a Module
newcomer always installs itself because the rejection test requires the
newcomer to be a Package; a Package newcomer over a Module owner is
rejected).  `_updateHasteMap` is a total function — a conflict is only
logged, never fatal. -/
theorem claim_C6_module_wins_either_order (map : HMap) (name : String)
    (mMod mPkg : HEntity) (hm : mMod.type = ("Module")) (hp : mPkg.type = ("Package")) :
    hmGet (updateHasteMap (updateHasteMap map name mMod) name mPkg) name = some mMod ∧
    hmGet (updateHasteMap (updateHasteMap map name mPkg) name mMod) name = some mMod := by
  have hmodBeq : (mMod.type == ("Package")) = false := by
    rw [hm]
    decide
  constructor
  · have h1 : hmGet (updateHasteMap map name mMod) name = some mMod :=
      updateHasteMap_nonpackage_self map name mMod hmodBeq
    have hcond : ((mPkg.type == ("Package")) && (mMod.type == ("Module"))) = true := by
      rw [hm, hp]
      decide
    rw [updateHasteMap_package_over_module (updateHasteMap map name mMod) name mPkg
      mMod h1 hcond]
    exact h1
  · exact updateHasteMap_nonpackage_self (updateHasteMap map name mPkg) name mMod hmodBeq

/-- C6 witness: the either-order precedence at a concrete Module and
Package declaring the id `X`. -/
theorem claim_C6_witness :
    hmGet (updateHasteMap (updateHasteMap [] ("X") (HEntity.mk ("Module") ("/a.js")))
        ("X") (HEntity.mk ("Package") ("/p/package.json"))) ("X")
      = some (HEntity.mk ("Module") ("/a.js")) ∧
    hmGet (updateHasteMap (updateHasteMap [] ("X") (HEntity.mk ("Package") ("/p/package.json")))
        ("X") (HEntity.mk ("Module") ("/a.js"))) ("X")
      = some (HEntity.mk ("Module") ("/a.js")) :=
  claim_C6_module_wins_either_order [] ("X") (HEntity.mk ("Module") ("/a.js"))
    (HEntity.mk ("Package") ("/p/package.json")) rfl rfl

/-! ## Claim C7 -/

/-- C7: the very first statement of `_processFileChange` replaces the
resolution cache with a fresh empty object — before the handler filters
out directory events, ignored paths and excluded node-modules paths — so
after any change event the cache is empty, no entry inserted before the
event can be returned afterwards, and a post-change resolution coincides
with a resolution run against an empty (from-scratch) cache. -/
theorem claim_C7_change_event_clears_cache (ignoreFilePath : String → Bool)
    (provides : Option (List String)) (st : DGState)
    (type filePath root : String) (fstatIsDir : Option Bool) :
    (processFileChange ignoreFilePath provides st type filePath root
        fstatIsDir).immediateResolutionCache = [] ∧
    (∀ hasteRes nodeRes fromPath toModuleName,
      resolveDependency provides hasteRes nodeRes
          ((processFileChange ignoreFilePath provides st type filePath root
            fstatIsDir).immediateResolutionCache) fromPath toModuleName
        = resolveDependency provides hasteRes nodeRes [] fromPath toModuleName) := by
  have hc : (processFileChange ignoreFilePath provides st type filePath root
      fstatIsDir).immediateResolutionCache = [] := by
    unfold processFileChange
    dsimp only
    split
    · rfl
    · split <;> rfl
  exact ⟨hc, fun hasteRes nodeRes fromPath toModuleName => by rw [hc]⟩

/-! ## Claim C9 -/

/-- C9 counterexample: the claim says the entry-not-found error is raised
exactly when the entry path does not exist under any configured root; but
`_getAbsolutePath` returns an absolute entry path as-is without any
existence check, so the nonexistent absolute entry `/nope.js` (which in
particular exists under no root of the empty filesystem) raises no
error. -/
theorem claim_C9_counterexample :
    ¬ ((entryNotFound fsEmpty [("/root")] ("/nope.js")) = true ↔
        ¬ (existsUnderSomeRoot fsEmpty [("/root")] ("/nope.js") = true)) := by
  decide

/-- C9 (amended): `getOrderedDependencies` raises its distinct
user-facing `NotFoundError` exactly when the entry path is not absolute
and joining it under each configured root yields no existing file; an
absolute entry path never raises it, even when the file does not
exist. -/
theorem claim_C9_entry_error_characterization (fs : FS) (roots : List String)
    (entryPath : String) :
    entryNotFound fs roots entryPath = true ↔
      (isAbsolutePath entryPath = false ∧
        ∀ r ∈ roots, fs.fileExists (pathJoin r entryPath) = false) := by
  unfold entryNotFound getAbsolutePath
  by_cases habs : isAbsolutePath entryPath = true
  · simp [habs]
  · have habs' : isAbsolutePath entryPath = false := by
      cases h : isAbsolutePath entryPath
      · rfl
      · exact absurd h habs
    rw [if_neg habs]
    simp only [habs', true_and]
    rw [Option.isNone_iff_eq_none]
    exact probe_findSome?_eq_none fs entryPath roots

/-- C9 witness: a relative entry missing under the only root raises the
error. -/
theorem claim_C9_witness :
    entryNotFound fsEmpty [("/root")] ("missing.js") = true :=
  (claim_C9_entry_error_characterization fsEmpty [("/root")] ("missing.js")).mpr
    (by decide)

/-! ## Claim C10 -/

/-- C10: the `Module` constructor throws exactly on non-absolute file
paths, and a successfully constructed Module stores
`path.resolve(file)` — a canonicalized path that is still absolute — with
the `Module` type tag, so the identity `hash()` and every resolution
cache key derived from it are built from an absolute canonical path. -/
theorem claim_C10_module_constructor (file : String) :
    ((∃ m, ModuleEntity.make file = Except.ok m) ↔ isAbsolutePath file = true) ∧
    (∀ m, ModuleEntity.make file = Except.ok m →
      m.path = resolvePath file ∧ isAbsolutePath m.path = true ∧
        m.type = ("Module") ∧ ModuleEntity.hash m = ("Module : ") ++ resolvePath file) ∧
    (isAbsolutePath file = false → ∃ msg, ModuleEntity.make file = Except.error msg) := by
  by_cases habs : isAbsolutePath file = true
  · refine ⟨⟨fun _ => habs, fun _ => ?_⟩, fun m hm => ?_, fun hfalse => ?_⟩
    · exact ⟨_, by unfold ModuleEntity.make; rw [if_pos habs]⟩
    · have hm' : ModuleEntity.make file
          = Except.ok (ModuleEntity.mk (resolvePath file) ("Module")) := by
        unfold ModuleEntity.make
        rw [if_pos habs]
      rw [hm'] at hm
      obtain rfl : m = ModuleEntity.mk (resolvePath file) ("Module") :=
        (Except.ok.injEq _ _).mp hm.symm
      exact ⟨rfl, isAbsolutePath_resolvePath file habs, rfl, rfl⟩
    · rw [habs] at hfalse
      exact absurd hfalse (by decide)
  · have habs' : isAbsolutePath file = false := by
      cases h : isAbsolutePath file
      · rfl
      · exact absurd h habs
    have herr : ModuleEntity.make file
        = Except.error (("Expected file to be absolute path but got ") ++ file) := by
      unfold ModuleEntity.make
      rw [if_neg habs]
    refine ⟨⟨fun hex => ?_, fun h => absurd h habs⟩, fun m hm => ?_, fun _ => ⟨_, herr⟩⟩
    · obtain ⟨m, hm⟩ := hex
      rw [herr] at hm
      exact absurd hm (by simp)
    · rw [herr] at hm
      exact absurd hm (by simp)

/-- C10 witness: constructing a Module at a non-normalized absolute path
stores the canonical absolute form, and a relative path is rejected. -/
theorem claim_C10_witness :
    ((ModuleEntity.mk ("/a/c.js") ("Module")).path = resolvePath ("/a//b/../c.js") ∧
      isAbsolutePath (ModuleEntity.mk ("/a/c.js") ("Module")).path = true ∧
      (ModuleEntity.mk ("/a/c.js") ("Module")).type = ("Module") ∧
      ModuleEntity.hash (ModuleEntity.mk ("/a/c.js") ("Module"))
        = ("Module : ") ++ resolvePath ("/a//b/../c.js")) ∧
    (∃ msg, ModuleEntity.make ("rel.js") = Except.error msg) :=
  ⟨(claim_C10_module_constructor ("/a//b/../c.js")).2.1
      (ModuleEntity.mk ("/a/c.js") ("Module")) (by rfl),
    (claim_C10_module_constructor ("rel.js")).2.2 (by decide)⟩

end HasteResolver
